import Mathlib

/-!
# Verification of the CSR sparse-matrix / dense-vector multiply engine

Shallow embedding of `src/sparse.rs`: the `SparseMatrix` CSR data type and
its operations `get_row_unchecked`, `multiply_vec`, `multiply_vec_unchecked`,
`multiply_vec_into_unchecked`, together with proofs of the spec's claims.

Fallible Rust operations (slice indexing `l[i..j]`, element indexing `v[c]`,
`zip_eq`) are modelled with `Option`: `none` stands for a panic.  The rayon
parallel map `par_windows(2).map(...).collect_into_vec(sink)` is modelled as
a sequential `Option`-valued map over the list of adjacent `indptr` pairs:
by the spec, row computations are independent and write-disjoint, so the
value computed is independent of scheduling, and a panic in any row aborts
the whole call.
-/

set_option autoImplicit false

namespace Spmvm

variable {α : Type} {β : Type}

/-- Rust slice expression `l[i..j]`: defined (`some`) exactly when
`i ≤ j ∧ j ≤ l.length`, in which case it is the half-open window
`[i, j)` of `l`; otherwise the access panics (`none`). -/
def sliceRange (l : List α) (i j : Nat) : Option (List α) :=
  if i ≤ j ∧ j ≤ l.length then some ((l.drop i).take (j - i)) else none

/-- itertools `zip_eq`: zips two sequences, panicking (`none`) when their
lengths differ. -/
def zipEq (xs : List α) (ys : List β) : Option (List (α × β)) :=
  if xs.length = ys.length then some (xs.zip ys) else none

/-- `Option`-valued map over a list: `some` of the pointwise results when
every element succeeds, `none` as soon as any element fails.  This models a
(parallel) `map(...).collect(...)` pipeline whose per-element closure can
panic. -/
def optMapList (f : α → Option β) : List α → Option (List β)
  | [] => some []
  | a :: as => do
      let b ← f a
      let bs ← optMapList f as
      pure (b :: bs)

/-- Rust `slice::par_windows(2)`, as the list of adjacent pairs of `l`
(the `try_into().unwrap()` of each length-2 window into `[usize; 2]`
always succeeds and is modelled away). -/
def parWindows2 (l : List Nat) : List (Nat × Nat) :=
  l.zip l.tail

/-- Executable check that a list of naturals is non-decreasing; used only
to decide the well-formedness invariant on concrete inputs. -/
def nondecreasingB : List Nat → Bool
  | [] => true
  | [_] => true
  | a :: b :: rest => a ≤ b && nondecreasingB (b :: rest)

/-- CSR format sparse matrix over a field `F`, following `SparseMatrix<F>`
in `sparse.rs`: nonzero values `data`, their column `indices`, row
boundaries `indptr`, and the column count `cols`. -/
structure SparseMatrix (F : Type) where
  data : List F
  indices : List Nat
  indptr : List Nat
  cols : Nat
deriving DecidableEq

namespace SparseMatrix

variable {F : Type}

/-- `SparseMatrix::get_row_unchecked`: for a boundary pair `ptrs = (i, j)`,
`self.data[i..j].iter().zip_eq(&self.indices[i..j])`.  Panics (`none`) when
either range is invalid for its sequence or the two slices have different
lengths. -/
def get_row_unchecked (M : SparseMatrix F) (ptrs : Nat × Nat) :
    Option (List (F × Nat)) := do
  let vals : List F ← sliceRange M.data ptrs.1 ptrs.2
  let colIdxs : List Nat ← sliceRange M.indices ptrs.1 ptrs.2
  zipEq vals colIdxs

/-- The per-row closure of `multiply_vec_into_unchecked`:
`get_row_unchecked(ptrs).map(|(val, col_idx)| *val * vector[*col_idx]).sum()`.
Panics (`none`) when the row access panics or any column index is out of
bounds for `vector`; otherwise the field sum of the products, starting from
the additive identity. -/
def rowDot [CommRing F] (M : SparseMatrix F) (vector : List F)
    (ptrs : Nat × Nat) : Option F := do
  let row ← M.get_row_unchecked ptrs
  let terms ← optMapList (fun vc => (vector.get? vc.2).map (fun x => vc.1 * x)) row
  pure terms.sum

/-- `SparseMatrix::multiply_vec_into_unchecked`: maps the per-row dot
product over the adjacent pairs of `indptr` and collects positionally into
the sink, whose previous contents are discarded by `collect_into_vec`; we
return the collected vector. -/
def multiply_vec_into_unchecked [CommRing F] (M : SparseMatrix F)
    (vector : List F) : Option (List F) :=
  optMapList (M.rowDot vector) (parWindows2 M.indptr)

/-- `SparseMatrix::multiply_vec_unchecked`: allocates the sink and delegates
to `multiply_vec_into_unchecked`. -/
def multiply_vec_unchecked [CommRing F] (M : SparseMatrix F)
    (vector : List F) : Option (List F) :=
  M.multiply_vec_into_unchecked vector

/-- `SparseMatrix::multiply_vec`: asserts `self.cols == vector.len()`
(panic, `none`, on mismatch), then delegates to the unchecked variant. -/
def multiply_vec [CommRing F] (M : SparseMatrix F) (vector : List F) :
    Option (List F) :=
  if M.cols = vector.length then M.multiply_vec_unchecked vector else none

/-- `impl Clone for SparseMatrix`: each backing sequence is copied
element-by-element (in parallel in the source); `cols` is reused. -/
def clone (M : SparseMatrix F) : SparseMatrix F :=
  { data := M.data.map id
    indices := M.indices.map id
    indptr := M.indptr.map id
    cols := M.cols }

/-- The §3 CSR well-formedness invariants: `indptr` is non-decreasing,
starts at `0`, ends at `len(data) = len(indices)`, and every column index
is `< cols`. -/
def WF (M : SparseMatrix F) : Prop :=
  M.indptr.head? = some 0 ∧
  M.indptr.getLast? = some M.data.length ∧
  M.data.length = M.indices.length ∧
  List.Chain' (· ≤ ·) M.indptr ∧
  ∀ c ∈ M.indices, c < M.cols

instance (M : SparseMatrix F) : Decidable M.WF :=
  decidable_of_iff (M.indptr.head? = some 0 ∧
    M.indptr.getLast? = some M.data.length ∧
    M.data.length = M.indices.length ∧
    nondecreasingB M.indptr = true ∧
    ∀ c ∈ M.indices, c < M.cols)
    (by
      have h : ∀ l : List Nat,
          nondecreasingB l = true ↔ List.Chain' (· ≤ ·) l := by
        intro l
        induction l with
        | nil => simp [nondecreasingB]
        | cons a t ih =>
            cases t with
            | nil => simp [nondecreasingB]
            | cons b rest =>
                rw [nondecreasingB, List.chain'_cons, Bool.and_eq_true,
                  decide_eq_true_eq, ih]
      rw [h]
      exact Iff.rfl)

/-- The largest column index referenced in `indices` (`0` when empty). -/
def maxColIndex (M : SparseMatrix F) : Nat :=
  M.indices.foldr max 0

/-- Spec-side description of one row's stored entries: the pairs
`(value, col)` of the slice `[a, b)` of `data`/`indices`. -/
def rowPairs (M : SparseMatrix F) (a b : Nat) : List (F × Nat) :=
  ((M.data.drop a).take (b - a)).zip ((M.indices.drop a).take (b - a))

/-- Spec-side description of one row of the product: the field sum, over
the pairs `(value, col)` of the row slice `[a, b)`, of `value * v[col]`,
starting from the additive identity. -/
def dotRow [CommRing F] (M : SparseMatrix F) (v : List F) (a b : Nat) : F :=
  ((M.rowPairs a b).map (fun p => p.1 * v.getD p.2 0)).sum

end SparseMatrix

/-! ### Concrete instances used in end-to-end checks and witnesses -/

instance : Fact (Nat.Prime 7) := ⟨by norm_num⟩

/-- The 3×3 matrix `A` of the spec's end-to-end scenario: row 0 holds `2`
at column 0 and `3` at column 1, row 1 is empty, row 2 holds `5` at
column 2. -/
def exampleA (F : Type) [CommRing F] : SparseMatrix F :=
  ⟨[2, 3, 5], [0, 1, 2], [0, 2, 2, 3], 3⟩

/-- The empty matrix of the spec's second end-to-end scenario: zero rows,
three columns. -/
def emptyM (F : Type) [CommRing F] : SparseMatrix F :=
  ⟨[], [], [0], 3⟩

/-- The CSR encoding of the `n × n` identity: one stored entry per row,
the multiplicative identity at position `(i, i)`. -/
def identityM (F : Type) [CommRing F] (n : Nat) : SparseMatrix F :=
  ⟨List.replicate n 1, List.range n, List.range (n + 1), n⟩

/-- A malformed matrix (its `indptr` overruns the empty `data`) whose
column count still matches the empty vector; exhibits a checked multiply
that fails despite the shapes matching. -/
def badIndptrM : SparseMatrix (ZMod 7) :=
  ⟨[], [], [0, 1], 0⟩

/-- A well-formed one-entry matrix whose single column index `0` equals
the length of the empty vector; exhibits the off-by-one in the unchecked
multiply's documented precondition. -/
def oneEntryM : SparseMatrix (ZMod 7) :=
  ⟨[1], [0], [0, 1], 1⟩

/-! ### Helper lemmas about the `Option`-valued map -/

theorem optMapList_nil {α β : Type} (f : α → Option β) :
    optMapList f [] = some [] := rfl

theorem optMapList_cons {α β : Type} (f : α → Option β) (a : α) (as : List α) :
    optMapList f (a :: as) =
      (f a).bind fun b => (optMapList f as).bind fun bs => some (b :: bs) := rfl

theorem optMapList_eq_some_map {α β : Type} (f : α → Option β) (g : α → β) :
    ∀ l : List α, (∀ a ∈ l, f a = some (g a)) →
      optMapList f l = some (l.map g) := by
  intro l
  induction l with
  | nil => intro _; rfl
  | cons a as ih =>
      intro h
      rw [optMapList_cons, h a (List.mem_cons_self a as),
        ih fun x hx => h x (List.mem_cons_of_mem a hx)]
      rfl

theorem optMapList_eq_none {α β : Type} (f : α → Option β) {a : α}
    (l : List α) (ha : a ∈ l) (hfa : f a = none) :
    optMapList f l = none := by
  induction l with
  | nil => cases ha
  | cons x xs ih =>
      rw [optMapList_cons]
      rcases List.mem_cons.mp ha with rfl | hmem
      · rw [hfa]; rfl
      · cases hfx : f x with
        | none => rfl
        | some b => rw [ih hmem]; rfl

/-! ### Helper lemmas about adjacent `indptr` windows -/

theorem parWindows2_length (l : List Nat) :
    (parWindows2 l).length = l.length - 1 := by
  simp only [parWindows2, List.length_zip, List.length_tail]
  omega

theorem parWindows2_getElem (l : List Nat) (i : Nat)
    (h : i < (parWindows2 l).length) (h1 : i < l.length)
    (h2 : i + 1 < l.length) :
    (parWindows2 l)[i] = (l[i], l[i + 1]) := by
  simp only [parWindows2] at h ⊢
  rw [List.getElem_zip, List.getElem_tail]

theorem mem_parWindows2 {l : List Nat} {p : Nat × Nat}
    (hp : p ∈ parWindows2 l) :
    ∃ i, ∃ h1 : i < l.length, ∃ h2 : i + 1 < l.length,
      p = (l[i], l[i + 1]) := by
  obtain ⟨⟨i, hi⟩, hget⟩ := List.mem_iff_get.mp hp
  have hlen : i < l.length - 1 := by
    have := parWindows2_length l; omega
  have h1 : i < l.length := by omega
  have h2 : i + 1 < l.length := by omega
  refine ⟨i, h1, h2, ?_⟩
  rw [← hget, List.get_eq_getElem, parWindows2_getElem l i hi h1 h2]

namespace SparseMatrix

/-- Under the §3 invariants, every adjacent `indptr` pair `(a, b)` is a
valid, ordered slice range of `data`. -/
theorem WF.window_bounds {F : Type} {M : SparseMatrix F} (hwf : M.WF)
    {p : Nat × Nat} (hp : p ∈ parWindows2 M.indptr) :
    p.1 ≤ p.2 ∧ p.2 ≤ M.data.length := by
  obtain ⟨hhead, hlast, _hlen, hchain, _hcols⟩ := hwf
  obtain ⟨i, h1, h2, rfl⟩ := mem_parWindows2 hp
  have hne : M.indptr ≠ [] := List.ne_nil_of_length_pos (by omega)
  have hpair : List.Pairwise (· ≤ ·) M.indptr :=
    List.chain'_iff_pairwise.mp hchain
  have hlastval : M.indptr[M.indptr.length - 1] = M.data.length := by
    have := List.getLast_eq_getElem M.indptr hne
    rw [List.getLast?_eq_getLast M.indptr hne, this] at hlast
    exact Option.some.inj hlast
  constructor
  · exact (List.pairwise_iff_getElem.mp hpair) i (i + 1) h1 h2 (by omega)
  · rcases Nat.lt_or_ge (i + 1) (M.indptr.length - 1) with hlt | hge
    · have := (List.pairwise_iff_getElem.mp hpair) (i + 1)
        (M.indptr.length - 1) h2 (by omega) hlt
      omega
    · have : i + 1 = M.indptr.length - 1 := by omega
      simp only [this, hlastval, le_refl]

/-- When the boundary pair `(a, b)` is a valid, ordered slice range of
`data` and `indices`, the row access succeeds: both slices are defined,
they have equal length, and `zip_eq` returns the row's `(value, col)`
pairs. -/
theorem get_row_unchecked_eq_some {F : Type} {M : SparseMatrix F}
    {a b : Nat} (hab : a ≤ b) (hbd : b ≤ M.data.length)
    (hlen : M.data.length = M.indices.length) :
    M.get_row_unchecked (a, b) = some (M.rowPairs a b) := by
  have hbi : b ≤ M.indices.length := hlen ▸ hbd
  have hd : sliceRange M.data a b = some ((M.data.drop a).take (b - a)) := by
    rw [sliceRange, if_pos ⟨hab, hbd⟩]
  have hix : sliceRange M.indices a b =
      some ((M.indices.drop a).take (b - a)) := by
    rw [sliceRange, if_pos ⟨hab, hbi⟩]
  have hdlen : ((M.data.drop a).take (b - a)).length = b - a := by
    simp only [List.length_take, List.length_drop]
    omega
  have hixlen : ((M.indices.drop a).take (b - a)).length = b - a := by
    simp only [List.length_take, List.length_drop]
    omega
  rw [get_row_unchecked]
  simp only [hd, hix, Option.bind_eq_bind, Option.some_bind]
  rw [zipEq, if_pos (hdlen.trans hixlen.symm)]
  rfl

/-- When the slice range is valid and every referenced column index is in
bounds for `v`, the per-row closure succeeds and computes the spec's row
dot product. -/
theorem rowDot_eq_some {F : Type} [CommRing F] {M : SparseMatrix F}
    {v : List F} {a b : Nat} (hab : a ≤ b) (hbd : b ≤ M.data.length)
    (hlen : M.data.length = M.indices.length)
    (hcols : ∀ c ∈ M.indices, c < v.length) :
    M.rowDot v (a, b) = some (M.dotRow v a b) := by
  have hrow : M.get_row_unchecked (a, b) = some (M.rowPairs a b) :=
    get_row_unchecked_eq_some hab hbd hlen
  have hterms : ∀ p ∈ M.rowPairs a b,
      (v.get? p.2).map (fun x => p.1 * x) = some (p.1 * v.getD p.2 0) := by
    intro p hp
    have hsnd : p.2 ∈ M.indices := by
      have := (List.of_mem_zip hp).2
      exact List.mem_of_mem_drop (List.mem_of_mem_take this)
    have hlt : p.2 < v.length := hcols p.2 hsnd
    rw [List.get?_eq_getElem? , List.getElem?_eq_getElem hlt,
      Option.map_some', List.getD_eq_getElem v 0 hlt]
  rw [rowDot]
  simp only [hrow, Option.bind_eq_bind, Option.some_bind,
    optMapList_eq_some_map _ _ _ hterms, Option.some_bind]
  rw [dotRow]
  rfl

/-- Master characterization: under the §3 invariants, when every referenced
column index is in bounds for `v`, the unchecked multiply succeeds and
returns the list of per-row dot products, one per adjacent `indptr` pair. -/
theorem multiply_vec_unchecked_char {F : Type} [CommRing F]
    (M : SparseMatrix F) (v : List F) (hwf : M.WF)
    (hcols : ∀ c ∈ M.indices, c < v.length) :
    M.multiply_vec_unchecked v =
      some ((parWindows2 M.indptr).map fun p => M.dotRow v p.1 p.2) := by
  rw [multiply_vec_unchecked, multiply_vec_into_unchecked]
  apply optMapList_eq_some_map
  intro p hp
  obtain ⟨hab, hbd⟩ := hwf.window_bounds hp
  have := rowDot_eq_some (M := M) (v := v) hab hbd hwf.2.2.1 hcols
  simpa using this

/-- Checked variant of the master characterization: when additionally the
shape precondition `v.length = cols` holds, `multiply_vec` passes the
assertion and returns the per-row dot products. -/
theorem multiply_vec_char {F : Type} [CommRing F] (M : SparseMatrix F)
    (v : List F) (hwf : M.WF) (hv : v.length = M.cols) :
    M.multiply_vec v =
      some ((parWindows2 M.indptr).map fun p => M.dotRow v p.1 p.2) := by
  rw [multiply_vec, if_pos hv.symm]
  exact multiply_vec_unchecked_char M v hwf fun c hc => hv ▸ hwf.2.2.2.2 c hc

/-- Entry-level form of the characterization: the output has one entry per
row, and entry `i` is the dot product of the slice
`[indptr[i], indptr[i+1])` with `v`. -/
theorem multiply_vec_entries {F : Type} [CommRing F] (M : SparseMatrix F)
    (v : List F) (hwf : M.WF) (hv : v.length = M.cols) :
    ∃ out, M.multiply_vec v = some out ∧
      out.length = M.indptr.length - 1 ∧
      ∀ i, i < M.indptr.length - 1 →
        out.getD i 0 =
          M.dotRow v (M.indptr.getD i 0) (M.indptr.getD (i + 1) 0) := by
  refine ⟨_, multiply_vec_char M v hwf hv, ?_, ?_⟩
  · rw [List.length_map, parWindows2_length]
  · intro i hi
    have hw : i < (parWindows2 M.indptr).length := by
      rw [parWindows2_length]; exact hi
    have hm : i < ((parWindows2 M.indptr).map
        fun p => M.dotRow v p.1 p.2).length := by
      rw [List.length_map]; exact hw
    have h1 : i < M.indptr.length := by omega
    have h2 : i + 1 < M.indptr.length := by omega
    rw [List.getD_eq_getElem _ 0 hm, List.getElem_map,
      parWindows2_getElem M.indptr i hw h1 h2,
      List.getD_eq_getElem _ 0 h1, List.getD_eq_getElem _ 0 h2]

end SparseMatrix

/-! ### Small arithmetic and list helpers for the individual claims -/

theorem take_one_drop {α : Type} (l : List α) (i : Nat) (h : i < l.length) :
    (l.drop i).take 1 = [l[i]] := by
  rw [List.drop_eq_getElem_cons h]
  rfl

theorem le_foldr_max (l : List Nat) : ∀ c ∈ l, c ≤ l.foldr max 0 := by
  induction l with
  | nil => intro c hc; cases hc
  | cons a as ih =>
      intro c hc
      rcases List.mem_cons.mp hc with rfl | h
      · exact Nat.le_max_left _ _
      · exact Nat.le_trans (ih c h) (Nat.le_max_right _ _)

theorem sum_map_linear {F : Type} [CommRing F] (a b : F) (f g : F × Nat → F)
    (l : List (F × Nat)) :
    (l.map fun p => a * f p + b * g p).sum =
      a * (l.map f).sum + b * (l.map g).sum := by
  induction l with
  | nil => simp
  | cons x xs ih =>
      simp only [List.map_cons, List.sum_cons, ih]
      ring

theorem getD_zipWith {F : Type} [CommRing F] (h : F → F → F)
    (v1 v2 : List F) (c : Nat) (h1 : c < v1.length) (h2 : c < v2.length) :
    (List.zipWith h v1 v2).getD c 0 = h v1[c] v2[c] := by
  have hc : c < (List.zipWith h v1 v2).length := by
    rw [List.length_zipWith]; omega
  rw [List.getD_eq_getElem _ 0 hc, List.getElem_zipWith]

namespace SparseMatrix

theorem rowPairs_snd_mem {F : Type} {M : SparseMatrix F} {a b : Nat}
    {p : F × Nat} (hp : p ∈ M.rowPairs a b) : p.2 ∈ M.indices := by
  have := (List.of_mem_zip hp).2
  exact List.mem_of_mem_drop (List.mem_of_mem_take this)

/-- The row dot product is linear in the dense vector, pointwise over the
row's stored column indices. -/
theorem dotRow_linear {F : Type} [CommRing F] (M : SparseMatrix F)
    (v1 v2 : List F) (a b : F) (hlen : v1.length = v2.length)
    (hcols : ∀ c ∈ M.indices, c < v1.length) (s e : Nat) :
    M.dotRow (List.zipWith (fun x y => a * x + b * y) v1 v2) s e =
      a * M.dotRow v1 s e + b * M.dotRow v2 s e := by
  rw [dotRow, dotRow, dotRow, ← sum_map_linear a b
    (fun p => p.1 * v1.getD p.2 0) (fun p => p.1 * v2.getD p.2 0)]
  congr 1
  apply List.map_congr_left
  intro p hp
  have hm : p.2 ∈ M.indices := rowPairs_snd_mem hp
  have hc1 : p.2 < v1.length := hcols p.2 hm
  have hc2 : p.2 < v2.length := hlen ▸ hc1
  rw [getD_zipWith _ _ _ _ hc1 hc2, List.getD_eq_getElem v1 0 hc1,
    List.getD_eq_getElem v2 0 hc2]
  ring

/-- `clone` is the value-level identity: each backing sequence is copied
element-for-element and `cols` is reused. -/
theorem clone_eq {F : Type} (M : SparseMatrix F) : M.clone = M := by
  simp [clone]

end SparseMatrix

namespace SparseMatrix

/-! ### The claims -/

/-- **C1**: for every well-formed CSR matrix `M` and dense vector `v` with
`v.length = M.cols`, `multiply_vec` succeeds and returns a vector of length
`indptr.length - 1` whose entry `i` is the field sum, over the pairs
`(value, col)` of the slice `[indptr[i], indptr[i+1])` of `data`/`indices`,
of `value * v[col]`, accumulated from the additive identity. -/
theorem multiply_vec_correct {F : Type} [Field F] (M : SparseMatrix F)
    (v : List F) (hwf : M.WF) (hv : v.length = M.cols) :
    ∃ out, M.multiply_vec v = some out ∧
      out.length = M.indptr.length - 1 ∧
      ∀ i, i < M.indptr.length - 1 →
        out.getD i 0 =
          M.dotRow v (M.indptr.getD i 0) (M.indptr.getD (i + 1) 0) :=
  multiply_vec_entries M v hwf hv

/-- Witness for **C1**: the 3×3 example matrix over `ZMod 7` and the
all-ones vector satisfy the hypotheses, and the theorem applies. -/
theorem multiply_vec_correct_witness :
    (exampleA (ZMod 7)).WF ∧
    ([1, 1, 1] : List (ZMod 7)).length = (exampleA (ZMod 7)).cols ∧
    (∃ out, (exampleA (ZMod 7)).multiply_vec [1, 1, 1] = some out ∧
      out.length = (exampleA (ZMod 7)).indptr.length - 1 ∧
      ∀ i, i < (exampleA (ZMod 7)).indptr.length - 1 →
        out.getD i 0 = (exampleA (ZMod 7)).dotRow [1, 1, 1]
          ((exampleA (ZMod 7)).indptr.getD i 0)
          ((exampleA (ZMod 7)).indptr.getD (i + 1) 0)) :=
  ⟨by decide, by decide,
    multiply_vec_correct (exampleA (ZMod 7)) [1, 1, 1] (by decide) (by decide)⟩

/-- **C2** (counterexample): the claim quantifies over *every* matrix, but
for the malformed `badIndptrM` the empty vector's length equals `cols`,
yet the checked multiply still fails (its `indptr` overruns `data`), so
"fails iff `v.length ≠ M.cols`" is false as stated. -/
theorem multiply_vec_shape_cex :
    ([] : List (ZMod 7)).length = badIndptrM.cols ∧
    badIndptrM.multiply_vec [] = none := by decide

/-- **C2** (amended): the checked multiply fails whenever
`v.length ≠ M.cols`; and for every *well-formed* `M`, when
`v.length = M.cols` it succeeds and returns a vector of length
`indptr.length - 1` (the number of rows). -/
theorem multiply_vec_shape {F : Type} [Field F] (M : SparseMatrix F)
    (v : List F) :
    (v.length ≠ M.cols → M.multiply_vec v = none) ∧
    (M.WF → v.length = M.cols →
      ∃ out, M.multiply_vec v = some out ∧
        out.length = M.indptr.length - 1) := by
  constructor
  · intro hne
    rw [multiply_vec, if_neg fun h => hne h.symm]
  · intro hwf hv
    obtain ⟨out, hsome, hlen, _⟩ := multiply_vec_entries M v hwf hv
    exact ⟨out, hsome, hlen⟩

/-- Witness for **C2**: a length-2 vector against the 3-column example
matrix fails; the matching length-3 vector succeeds with 3 rows. -/
theorem multiply_vec_shape_witness :
    (exampleA (ZMod 7)).multiply_vec [1, 1] = none ∧
    ∃ out, (exampleA (ZMod 7)).multiply_vec [1, 1, 1] = some out ∧
      out.length = (exampleA (ZMod 7)).indptr.length - 1 :=
  ⟨(multiply_vec_shape (exampleA (ZMod 7)) [1, 1]).1 (by decide),
   (multiply_vec_shape (exampleA (ZMod 7)) [1, 1, 1]).2 (by decide) (by decide)⟩

/-- **C3** (counterexample): `oneEntryM` is well-formed with one nonzero
entry, its maximum referenced column index is `0`, and the empty vector has
length `0 ≥ 0`; yet the unchecked multiply fails reading `v[0]`.  The
documented precondition "length ≥ the maximum column index" is off by
one. -/
theorem multiply_vec_unchecked_maxcol_cex :
    oneEntryM.WF ∧ oneEntryM.indices ≠ [] ∧
    oneEntryM.maxColIndex ≤ ([] : List (ZMod 7)).length ∧
    oneEntryM.multiply_vec_unchecked [] = none := by decide

/-- **C3** (amended): for every well-formed matrix with at least one
stored entry and every vector whose length is *strictly greater* than the
maximum referenced column index, the unchecked multiply succeeds and
produces the per-row dot products. -/
theorem multiply_vec_unchecked_safe {F : Type} [Field F]
    (M : SparseMatrix F) (v : List F) (hwf : M.WF)
    (_hne : M.indices ≠ []) (hv : M.maxColIndex < v.length) :
    M.multiply_vec_unchecked v =
      some ((parWindows2 M.indptr).map fun p => M.dotRow v p.1 p.2) :=
  multiply_vec_unchecked_char M v hwf fun c hc =>
    Nat.lt_of_le_of_lt (le_foldr_max M.indices c hc) hv

/-- Witness for **C3**: the one-entry matrix against a length-2 vector
(strictly longer than the maximum column index `0`). -/
theorem multiply_vec_unchecked_safe_witness :
    oneEntryM.WF ∧ oneEntryM.indices ≠ [] ∧
    oneEntryM.maxColIndex < ([1, 1] : List (ZMod 7)).length ∧
    oneEntryM.multiply_vec_unchecked [1, 1] =
      some ((parWindows2 oneEntryM.indptr).map
        fun p => oneEntryM.dotRow [1, 1] p.1 p.2) :=
  ⟨by decide, by decide, by decide,
    multiply_vec_unchecked_safe oneEntryM [1, 1]
      (by decide) (by decide) (by decide)⟩

/-- **C4**: linearity.  For every well-formed matrix, vectors `v1, v2` of
length `cols` and scalars `a, b`, all three multiplies succeed and
`multiply_vec M (a•v1 + b•v2) = a•multiply_vec M v1 + b•multiply_vec M v2`
with vector addition and scaling taken entrywise in the field. -/
theorem multiply_vec_linear {F : Type} [Field F] (M : SparseMatrix F)
    (v1 v2 : List F) (a b : F) (hwf : M.WF)
    (h1 : v1.length = M.cols) (h2 : v2.length = M.cols) :
    ∃ o1 o2 o, M.multiply_vec v1 = some o1 ∧ M.multiply_vec v2 = some o2 ∧
      M.multiply_vec (List.zipWith (fun x y => a * x + b * y) v1 v2) =
        some o ∧
      o = List.zipWith (fun x y => a * x + b * y) o1 o2 := by
  have hw : (List.zipWith (fun x y => a * x + b * y) v1 v2).length
      = M.cols := by
    rw [List.length_zipWith]; omega
  refine ⟨_, _, _, multiply_vec_char M v1 hwf h1,
    multiply_vec_char M v2 hwf h2, multiply_vec_char M _ hwf hw, ?_⟩
  apply List.ext_getElem
  · simp [List.length_zipWith]
  · intro i hi hizip
    have hiw : i < (parWindows2 M.indptr).length := by
      rw [List.length_map] at hi; exact hi
    have hi1 : i < ((parWindows2 M.indptr).map
        fun p => M.dotRow v1 p.1 p.2).length := by
      rw [List.length_map]; exact hiw
    have hi2 : i < ((parWindows2 M.indptr).map
        fun p => M.dotRow v2 p.1 p.2).length := by
      rw [List.length_map]; exact hiw
    rw [List.getElem_zipWith, List.getElem_map, List.getElem_map,
      List.getElem_map]
    exact dotRow_linear M v1 v2 a b (by omega)
      (fun c hc => h1 ▸ hwf.2.2.2.2 c hc) _ _

/-- Witness for **C4**: the 3×3 example matrix over `ZMod 7` with
`v1 = [1,2,3]`, `v2 = [4,5,6]`, `a = 2`, `b = 3`. -/
theorem multiply_vec_linear_witness :
    (exampleA (ZMod 7)).WF ∧
    ([1, 2, 3] : List (ZMod 7)).length = (exampleA (ZMod 7)).cols ∧
    ([4, 5, 6] : List (ZMod 7)).length = (exampleA (ZMod 7)).cols ∧
    (∃ o1 o2 o, (exampleA (ZMod 7)).multiply_vec [1, 2, 3] = some o1 ∧
      (exampleA (ZMod 7)).multiply_vec [4, 5, 6] = some o2 ∧
      (exampleA (ZMod 7)).multiply_vec
        (List.zipWith (fun x y => 2 * x + 3 * y) [1, 2, 3] [4, 5, 6]) =
          some o ∧
      o = List.zipWith (fun x y => 2 * x + 3 * y) o1 o2) :=
  ⟨by decide, by decide, by decide,
    multiply_vec_linear (exampleA (ZMod 7)) [1, 2, 3] [4, 5, 6] 2 3
      (by decide) (by decide) (by decide)⟩

/-- Core of the identity check over explicit CSR lists: the canonical
encoding of the `n × n` identity fixes every vector of length `n`. -/
theorem multiply_vec_identity_core {F : Type} [CommRing F] (n : Nat)
    (v : List F) (hv : v.length = n) :
    SparseMatrix.multiply_vec
      ⟨List.replicate n 1, List.range n, List.range (n + 1), n⟩ v
      = some v := by
  have hwf :
      WF (F := F) ⟨List.replicate n 1, List.range n,
        List.range (n + 1), n⟩ := by
    refine ⟨?_, ?_, ?_, ?_, ?_⟩
    · show (List.range (n + 1)).head? = some 0
      rw [List.range_succ_eq_map]
      rfl
    · show (List.range (n + 1)).getLast? =
        some (List.replicate n (1 : F)).length
      have hne : List.range (n + 1) ≠ [] := by
        apply List.ne_nil_of_length_pos
        rw [List.length_range]
        omega
      rw [List.getLast?_eq_getLast _ hne, List.getLast_eq_getElem,
        List.length_replicate, List.getElem_range, List.length_range]
      rfl
    · show (List.replicate n (1 : F)).length = (List.range n).length
      rw [List.length_replicate, List.length_range]
    · show List.Chain' (· ≤ ·) (List.range (n + 1))
      exact List.chain'_iff_pairwise.mpr
        ((List.pairwise_lt_range _).imp Nat.le_of_lt)
    · intro cc hcc
      exact List.mem_range.mp hcc
  rw [multiply_vec_char _ v hwf hv]
  congr 1
  apply List.ext_getElem
  · show (List.map _ (parWindows2 (List.range (n + 1)))).length = v.length
    rw [List.length_map, parWindows2_length, List.length_range]
    omega
  · intro i hi hiv
    have hvi : i < v.length := hiv
    have hin : i < n := by omega
    have hiw : i < (parWindows2 (List.range (n + 1))).length := by
      rw [List.length_map] at hi
      exact hi
    have h1 : i < (List.range (n + 1)).length := by
      rw [List.length_range]
      omega
    have h2 : i + 1 < (List.range (n + 1)).length := by
      rw [List.length_range]
      omega
    show (List.map (fun p => dotRow _ v p.1 p.2)
      (parWindows2 (List.range (n + 1))))[i] = v[i]
    rw [List.getElem_map, parWindows2_getElem _ i hiw h1 h2,
      List.getElem_range, List.getElem_range]
    have hrp : rowPairs (F := F)
        ⟨List.replicate n 1, List.range n, List.range (n + 1), n⟩
        i (i + 1) = [((1 : F), i)] := by
      have hdl : i < (List.replicate n (1 : F)).length := by
        rw [List.length_replicate]
        omega
      have hrl : i < (List.range n).length := by
        rw [List.length_range]
        omega
      show (((List.replicate n (1 : F)).drop i).take (i + 1 - i)).zip
          (((List.range n).drop i).take (i + 1 - i)) = [((1 : F), i)]
      have hsub : i + 1 - i = 1 := by omega
      rw [hsub, take_one_drop _ _ hdl, take_one_drop _ _ hrl,
        List.getElem_replicate, List.getElem_range]
      rfl
    rw [dotRow, hrp]
    simp [List.getD_eq_getElem v 0 hvi, List.getElem?_eq_getElem hvi]

/-- **C5**: a matrix encoding the `n × n` identity — in CSR form, exactly
one stored entry per row, the multiplicative identity at `(i, i)`, so
`data = replicate n 1`, `indices = range n`, `indptr = range (n+1)`,
`cols = n` — maps every dense vector of length `n` to itself. -/
theorem multiply_vec_identity {F : Type} [Field F] (n : Nat)
    (M : SparseMatrix F) (v : List F)
    (hdata : M.data = List.replicate n 1)
    (hidx : M.indices = List.range n)
    (hptr : M.indptr = List.range (n + 1)) (hcols : M.cols = n)
    (hv : v.length = n) :
    M.multiply_vec v = some v := by
  obtain ⟨d, ix, ptr, c⟩ := M
  simp only at hdata hidx hptr hcols
  subst hdata hidx hptr hcols
  exact multiply_vec_identity_core _ v hv

/-- Witness for **C5**: the stored 2×2 identity over `ZMod 7` fixes
`[3, 5]`. -/
theorem multiply_vec_identity_witness :
    (identityM (ZMod 7) 2).data = List.replicate 2 1 ∧
    (identityM (ZMod 7) 2).indices = List.range 2 ∧
    (identityM (ZMod 7) 2).indptr = List.range 3 ∧
    (identityM (ZMod 7) 2).cols = 2 ∧
    ([3, 5] : List (ZMod 7)).length = 2 ∧
    (identityM (ZMod 7) 2).multiply_vec [3, 5] = some [3, 5] :=
  ⟨by decide, by decide, by decide, by decide, by decide,
    multiply_vec_identity 2 (identityM (ZMod 7) 2) [3, 5]
      (by decide) (by decide) (by decide) (by decide) (by decide)⟩

/-- **C6**: for every well-formed matrix whose row `i` is empty
(`indptr[i] = indptr[i+1]`) and every dense vector of matching length,
entry `i` of the product is the additive identity. -/
theorem multiply_vec_zero_row {F : Type} [Field F] (M : SparseMatrix F)
    (v : List F) (i : Nat) (hwf : M.WF) (hv : v.length = M.cols)
    (hi : i < M.indptr.length - 1)
    (hrow : M.indptr.getD i 0 = M.indptr.getD (i + 1) 0) :
    ∃ out, M.multiply_vec v = some out ∧ out.getD i 0 = 0 := by
  obtain ⟨out, hsome, _hlen, hent⟩ := multiply_vec_entries M v hwf hv
  refine ⟨out, hsome, ?_⟩
  rw [hent i hi, hrow]
  simp [dotRow, rowPairs, Nat.sub_self]

/-- Witness for **C6**: row 1 of the 3×3 example matrix is empty, and the
corresponding output entry is `0`. -/
theorem multiply_vec_zero_row_witness :
    (exampleA (ZMod 7)).WF ∧
    ([1, 1, 1] : List (ZMod 7)).length = (exampleA (ZMod 7)).cols ∧
    1 < (exampleA (ZMod 7)).indptr.length - 1 ∧
    (exampleA (ZMod 7)).indptr.getD 1 0 =
      (exampleA (ZMod 7)).indptr.getD 2 0 ∧
    (∃ out, (exampleA (ZMod 7)).multiply_vec [1, 1, 1] = some out ∧
      out.getD 1 0 = 0) :=
  ⟨by decide, by decide, by decide, by decide,
    multiply_vec_zero_row (exampleA (ZMod 7)) [1, 1, 1] 1
      (by decide) (by decide) (by decide) (by decide)⟩

/-- **C8**: the end-to-end 3×3 scenario: `A` with rows
`{(0,2),(1,3)}, {}, {(2,5)}` times `v = [1,1,1]` equals `[5, 0, 5]`, over
any field. -/
theorem multiply_vec_example_3x3 (F : Type) [Field F] :
    (exampleA F).multiply_vec [1, 1, 1] = some [5, 0, 5] := by
  have h : (exampleA F).multiply_vec [1, 1, 1] =
      some [2 * 1 + (3 * 1 + 0), 0, 5 * 1 + 0] := rfl
  rw [h]
  norm_num

/-- Instantiation of **C8** at the concrete field `ZMod 7`. -/
theorem multiply_vec_example_3x3_witness :
    (exampleA (ZMod 7)).multiply_vec [1, 1, 1] = some [5, 0, 5] :=
  multiply_vec_example_3x3 (ZMod 7)

/-- **C9**: the empty matrix (`data = []`, `indices = []`, `indptr = [0]`,
`cols = 3`) times any length-3 vector is the empty vector. -/
theorem multiply_vec_empty_matrix {F : Type} [Field F] (v : List F)
    (hv : v.length = 3) :
    (emptyM F).multiply_vec v = some [] := by
  rw [multiply_vec, if_pos (show (emptyM F).cols = v.length from hv.symm)]
  rfl

/-- Witness for **C9** at `v = [1, 2, 3]` over `ZMod 7`. -/
theorem multiply_vec_empty_matrix_witness :
    ([1, 2, 3] : List (ZMod 7)).length = 3 ∧
    (emptyM (ZMod 7)).multiply_vec [1, 2, 3] = some [] :=
  ⟨by decide, multiply_vec_empty_matrix [1, 2, 3] (by decide)⟩

/-- **C10**: under the §3 invariants and `v.length = cols`, no index
access inside the checked multiply can fail: every adjacent `indptr` pair
is a valid ordered slice range of both `data` and `indices` (so the two
row slices exist and have equal length and `zip_eq` succeeds), every
column index used to read `v` is in bounds, and the multiply returns a
result. -/
theorem multiply_vec_no_oob {F : Type} [Field F] (M : SparseMatrix F)
    (v : List F) (hwf : M.WF) (hv : v.length = M.cols) :
    (∀ p ∈ parWindows2 M.indptr,
        p.1 ≤ p.2 ∧ p.2 ≤ M.data.length ∧ p.2 ≤ M.indices.length ∧
        M.get_row_unchecked p = some (M.rowPairs p.1 p.2)) ∧
    (∀ c ∈ M.indices, c < v.length) ∧
    (M.multiply_vec v).isSome := by
  have hlen : M.data.length = M.indices.length := hwf.2.2.1
  have hcols : ∀ c ∈ M.indices, c < v.length :=
    fun c hc => hv ▸ hwf.2.2.2.2 c hc
  refine ⟨?_, hcols, ?_⟩
  · intro p hp
    obtain ⟨hab, hbd⟩ := hwf.window_bounds hp
    exact ⟨hab, hbd, hlen ▸ hbd,
      get_row_unchecked_eq_some hab hbd hlen⟩
  · rw [multiply_vec_char M v hwf hv]
    rfl

/-- Witness for **C10**: the 3×3 example matrix over `ZMod 7` with the
all-ones vector. -/
theorem multiply_vec_no_oob_witness :
    (exampleA (ZMod 7)).WF ∧
    ([1, 1, 1] : List (ZMod 7)).length = (exampleA (ZMod 7)).cols ∧
    ((∀ p ∈ parWindows2 (exampleA (ZMod 7)).indptr,
        p.1 ≤ p.2 ∧ p.2 ≤ (exampleA (ZMod 7)).data.length ∧
        p.2 ≤ (exampleA (ZMod 7)).indices.length ∧
        (exampleA (ZMod 7)).get_row_unchecked p =
          some ((exampleA (ZMod 7)).rowPairs p.1 p.2)) ∧
     (∀ c ∈ (exampleA (ZMod 7)).indices,
        c < ([1, 1, 1] : List (ZMod 7)).length) ∧
     ((exampleA (ZMod 7)).multiply_vec [1, 1, 1]).isSome) :=
  ⟨by decide, by decide,
    multiply_vec_no_oob (exampleA (ZMod 7)) [1, 1, 1]
      (by decide) (by decide)⟩

end SparseMatrix

end Spmvm
